import Mathlib

/-!
# Verification of the study-planner allocation algorithm (`generate_plan` in `app.py`)

Shallow embedding conventions:

* Calendar dates are embedded as `Int` day numbers, with the convention that
  day `0` is a Monday, so that Python's `date.weekday()` corresponds to
  `d % 7` (`Int.emod`, which is nonnegative for a positive modulus) and a day
  is a weekend day iff `5 ≤ d % 7`.  Adding `timedelta(days := 1)` is `+ 1`,
  and `parse_date` on the stored ISO strings is the identity on day numbers.
* Hours are embedded as `ℚ`.  Python's `round(h, 2)` is embedded as `round2`
  below (round half up on exact rationals).
* The dictionaries `cap` and `plan` of `generate_plan`, keyed by `str(day)`
  (injective on dates), are embedded as functions `Int → ℚ` resp.
  `Int → List Alloc` together with the explicit key window
  `dayRange today last_due`; `cap.get(dkey, 0)` is the function applied
  outside the window, where it is `0` by construction.
* Each plan entry `(t["name"], round(h, 2))` is embedded as an `Alloc`
  carrying, besides the observable fields `name` and `hours = round2 raw`,
  two ghost instrumentation fields used only to state properties:
  `idx`, the position of the originating task in the sorted active list, and
  `raw`, the unrounded allocated amount (the value actually subtracted from
  the day capacity and the task's remaining hours).  Likewise a `Warning`
  records the data interpolated into the warning f-string (`name`, rounded
  shortfall `short`, `due_date`) plus the ghost fields `idx` and `rawShort`.
* Task records carry all the fields of the JSON task store; `generate_plan`
  reads only `name`, `start_date`, `due_date`, `priority`, `remaining_hours`.
* Python's ambient `date.today()` is made an explicit parameter `today`.
* Python's stable in-place `list.sort(key = (due_date, priority))` is
  embedded as `List.mergeSort` with the total lexicographic comparison
  `taskLE` (Lean's `mergeSort` is a stable sort, matching timsort's
  observable behaviour on a total key order).
-/

set_option maxRecDepth 100000

namespace StudyPlanner

/-- A task record as stored by the application (`tasks.json` entries after
normalisation).  The planner reads only `name`, `start_date`, `due_date`,
`priority` and `remaining_hours`; the remaining fields are carried to state
the frame property. -/
structure Task where
  name : String
  start_date : Int
  due_date : Int
  priority : Int
  remaining_hours : ℚ
  estimated_hours : ℚ := 0
  done_hours : ℚ := 0
  email : String := ""
  email_sent : Bool := false
  archived : Bool := false
deriving Repr, DecidableEq

/-- Python's `round(q, 2)`, on exact rationals: `⌊100 q + 1/2⌋ / 100`
(written with `Rat.floor` so that it evaluates).  Python rounds binary
floats half-to-even; on exact rationals we round halves up — the two agree
except at exact `.005` ties, which binary floats essentially never hit and
on which no property below depends. -/
def round2 (q : ℚ) : ℚ := ((q * 100 + 1/2).floor : ℚ) / 100

/-- One entry of a day's allocation list: the code appends
`(t["name"], round(h, 2))`.  `idx` and `raw` are ghost instrumentation (the
originating task's position in the sorted active list, and the unrounded
amount `h`); the observable pair is `(name, hours)`. -/
structure Alloc where
  idx : Nat
  name : String
  raw : ℚ
  hours : ℚ
deriving Repr, DecidableEq

/-- The data interpolated into a shortfall warning string:
`f"Not enough time for **{name}**: short by {round(hours_left, 2)} hours before {due_date}."`.
`idx` and `rawShort` are ghost instrumentation (originating task position,
unrounded shortfall). -/
structure Warning where
  idx : Nat
  name : String
  short : ℚ
  rawShort : ℚ
  due_date : Int
deriving Repr, DecidableEq

/-- The comparison underlying `active.sort(key=lambda t: (parse_date(t["due_date"]), t["priority"]))`:
lexicographic "less or equal" on the key pair. -/
def taskLE (a b : Task) : Bool :=
  decide (a.due_date < b.due_date ∨ (a.due_date = b.due_date ∧ a.priority ≤ b.priority))

/-- The inclusive run of calendar days from `lo` to `hi` (empty when `hi < lo`),
as walked by `while day <= hi: ... day += timedelta(days=1)`. -/
def dayRange (lo hi : Int) : List Int :=
  (List.range (hi + 1 - lo).toNat).map (fun i : Nat => lo + (i : Int))

/-- Mutable state shared across the per-task allocation loops: the remaining
day capacities `cap` and the day-keyed plan under construction. -/
structure GState where
  cap : Int → ℚ
  planAt : Int → List Alloc

/-- The body of the inner `while day <= due and hours_left > 0` loop for one
day `d`: if the day has capacity left, allocate
`h = min(cap[dkey], hours_left)`, append `(name, round(h, 2))` to the day's
plan list, and decrement capacity and remaining hours.  The guard
`hours_left > 0` of the `while` is folded into the day condition (once the
remaining hours reach `0` the loop allocates nothing further, so exiting
early and skipping the remaining days are observably equal). -/
def allocStep (i : Nat) (t : Task) (s : GState × ℚ) (d : Int) : GState × ℚ :=
  if 0 < s.2 ∧ 0 < s.1.cap d then
    let h := min (s.1.cap d) s.2
    (⟨Function.update s.1.cap d (s.1.cap d - h),
      Function.update s.1.planAt d (s.1.planAt d ++ [⟨i, t.name, h, round2 h⟩])⟩,
     s.2 - h)
  else s

/-- The allocation walk for one task: days from `parse_date(t["start_date"])`
through `parse_date(t["due_date"])`, starting from
`hours_left = t["remaining_hours"]`.  Returns the updated shared state and
the final `hours_left`. -/
def allocTask (i : Nat) (t : Task) (g : GState) : GState × ℚ :=
  (dayRange t.start_date t.due_date).foldl (allocStep i t) (g, t.remaining_hours)

/-- The outer `for t in active:` loop over the (index, task) pairs of the
sorted active list: allocate each task greedily, then emit a shortfall
warning when `hours_left > 0` remains. -/
def processTasks (l : List (Nat × Task)) (g : GState) (ws : List Warning) :
    GState × List Warning :=
  match l with
  | [] => (g, ws)
  | (i, t) :: rest =>
    let r := allocTask i t g
    processTasks rest r.1
      (if 0 < r.2 then ws ++ [⟨i, t.name, round2 r.2, r.2, t.due_date⟩] else ws)

/-- `max(parse_date(t["due_date"]) for t in active)` over a nonempty list
`a :: as`. -/
def lastDue (a : Task) (as : List Task) : Int :=
  as.foldl (fun m t => max m t.due_date) a.due_date

/-- The initial day-capacity table: every day from `today` through `lastD`
gets the weekend cap on Saturday/Sunday (`5 ≤ d % 7`) and the weekday cap
otherwise; days outside the window are absent, i.e. `cap.get(dkey, 0) = 0`. -/
def initCap (today lastD : Int) (wk we : ℚ) : Int → ℚ :=
  fun d => if today ≤ d ∧ d ≤ lastD then (if 5 ≤ d % 7 then we else wk) else 0

/-- The active tasks (`remaining_hours > 0`) sorted by `(due_date, priority)`. -/
def sortedActive (tasks : List Task) : List Task :=
  (tasks.filter (fun t => 0 < t.remaining_hours)).mergeSort taskLE

/-- The planner's result: the day-keyed plan (chronological key order, as the
Python dict's keys were inserted chronologically) and the warning list. -/
structure PlanResult where
  plan : List (Int × List Alloc)
  warnings : List Warning
deriving Repr, DecidableEq

/-- `generate_plan(tasks, weekday_cap_hours, weekend_cap_hours)` from
`app.py`, with the ambient `date.today()` made the explicit parameter
`today`.  Filter the active tasks, sort them by `(due_date, priority)`,
return empty outputs if none remain; otherwise build the capacity table over
`[today, last_due]`, run the greedy allocation for each task in order, and
drop empty days from the plan. -/
def generate_plan (today : Int) (tasks : List Task) (wk we : ℚ) : PlanResult :=
  let active := sortedActive tasks
  match active with
  | [] => ⟨[], []⟩
  | a :: as =>
    let lastD := lastDue a as
    let r := processTasks ((a :: as).enum) ⟨initCap today lastD wk we, fun _ => []⟩ []
    ⟨(dayRange today lastD).filterMap
        (fun d => if r.1.planAt d = [] then none else some (d, r.1.planAt d)),
     r.2⟩

/-- Sum of the ghost unrounded amounts of a list of allocations. -/
def sumRaw (l : List Alloc) : ℚ := (l.map Alloc.raw).sum

/-- Sum of the recorded (rounded) hours of a list of allocations. -/
def sumRec (l : List Alloc) : ℚ := (l.map Alloc.hours).sum

/-- All allocations recorded for task index `i` across the returned plan. -/
def taskAllocs (p : List (Int × List Alloc)) (i : Nat) : List Alloc :=
  (p.map (fun de => de.2.filter (fun e => e.idx = i))).flatten

/-- The shortfall reported in task `i`'s warning, `0` when no warning was
emitted for it. -/
def reportedShort (ws : List Warning) (i : Nat) : ℚ :=
  match ws.find? (fun w => w.idx = i) with
  | some w => w.short
  | none => 0

/-- The unrounded shortfall of task `i`'s warning, `0` when no warning was
emitted for it. -/
def rawShort (ws : List Warning) (i : Nat) : ℚ :=
  match ws.find? (fun w => w.idx = i) with
  | some w => w.rawShort
  | none => 0

/-! ## Basic lemmas on rounding, day ranges and allocation sums -/

theorem ratFloor_eq_intFloor (q : ℚ) : (q.floor : ℤ) = ⌊q⌋ := by
  rw [Rat.floor_def, Rat.floor_def']

theorem round2_def' (q : ℚ) : round2 q = ((⌊q * 100 + 1/2⌋ : ℤ) : ℚ) / 100 := by
  rw [round2, ratFloor_eq_intFloor]

theorem abs_round2_sub_le (q : ℚ) : |round2 q - q| ≤ 1/200 := by
  rw [round2_def']
  set n : ℤ := ⌊q * 100 + 1/2⌋ with hn
  have h1 : (n : ℚ) ≤ q * 100 + 1/2 := Int.floor_le _
  have h2 : q * 100 + 1/2 < n + 1 := Int.lt_floor_add_one _
  rw [abs_le]
  constructor <;> nlinarith

theorem le_round2_of_le (q : ℚ) (h : 1/200 ≤ q) : 1/100 ≤ round2 q := by
  rw [round2_def']
  have h1 : (1 : ℤ) ≤ ⌊q * 100 + 1/2⌋ := by
    rw [Int.le_floor]
    push_cast
    linarith
  have h2 : (1 : ℚ) ≤ (⌊q * 100 + 1/2⌋ : ℚ) := by exact_mod_cast h1
  linarith

theorem round2_zero : round2 0 = 0 := by
  rw [round2_def']
  norm_num

theorem mem_dayRange {lo hi d : Int} : d ∈ dayRange lo hi ↔ lo ≤ d ∧ d ≤ hi := by
  unfold dayRange
  simp only [List.mem_map, List.mem_range]
  constructor
  · rintro ⟨i, hi', rfl⟩
    constructor <;> [skip; skip] <;> omega
  · rintro ⟨h1, h2⟩
    exact ⟨(d - lo).toNat, by omega, by omega⟩

theorem dayRange_nodup (lo hi : Int) : (dayRange lo hi).Nodup := by
  unfold dayRange
  refine List.Nodup.map ?_ (List.nodup_range _)
  intro a b h
  have h2 : (a : Int) = b := add_left_cancel h
  exact_mod_cast h2

theorem sumRaw_nil : sumRaw [] = 0 := rfl

theorem sumRaw_append (l₁ l₂ : List Alloc) :
    sumRaw (l₁ ++ l₂) = sumRaw l₁ + sumRaw l₂ := by
  simp [sumRaw]

theorem sumRec_append (l₁ l₂ : List Alloc) :
    sumRec (l₁ ++ l₂) = sumRec l₁ + sumRec l₂ := by
  simp [sumRec]

theorem sumRaw_nonneg {l : List Alloc} (h : ∀ e ∈ l, 0 ≤ e.raw) : 0 ≤ sumRaw l := by
  induction l with
  | nil => simp [sumRaw]
  | cons a l ih =>
    have := h a (by simp)
    have := ih (fun e he => h e (by simp [he]))
    simp only [sumRaw, List.map_cons, List.sum_cons]
    simp only [sumRaw] at this
    linarith

theorem eq_nil_of_sumRaw_eq_zero {l : List Alloc} (h : ∀ e ∈ l, 0 < e.raw)
    (h0 : sumRaw l = 0) : l = [] := by
  cases l with
  | nil => rfl
  | cons a l =>
    exfalso
    have ha : 0 < a.raw := h a (by simp)
    have hl : 0 ≤ sumRaw l := sumRaw_nonneg (fun e he => (h e (by simp [he])).le)
    simp only [sumRaw, List.map_cons, List.sum_cons] at h0
    simp only [sumRaw] at hl
    linarith

/-- The recorded (rounded) sum of a list of allocations differs from its
unrounded sum by at most `0.005` per entry. -/
theorem abs_sumRec_sub_sumRaw {l : List Alloc}
    (h : ∀ e ∈ l, e.hours = round2 e.raw) :
    |sumRec l - sumRaw l| ≤ l.length * (1/200) := by
  induction l with
  | nil => simp [sumRec, sumRaw]
  | cons a l ih =>
    have ha : a.hours = round2 a.raw := h a (by simp)
    have hl := ih (fun e he => h e (by simp [he]))
    have hb : |a.hours - a.raw| ≤ 1/200 := by rw [ha]; exact abs_round2_sub_le _
    simp only [sumRec, sumRaw, List.map_cons, List.sum_cons, List.length_cons] at *
    have htri : |a.hours + (l.map Alloc.hours).sum - (a.raw + (l.map Alloc.raw).sum)|
        ≤ |a.hours - a.raw| + |(l.map Alloc.hours).sum - (l.map Alloc.raw).sum| := by
      have : a.hours + (l.map Alloc.hours).sum - (a.raw + (l.map Alloc.raw).sum)
          = (a.hours - a.raw) + ((l.map Alloc.hours).sum - (l.map Alloc.raw).sum) := by ring
      rw [this]
      exact abs_add _ _
    have hcast : ((l.length + 1 : ℕ) : ℚ) = (l.length : ℚ) + 1 := by push_cast; ring
    rw [hcast]
    linarith

/-! ## Specification of the per-task allocation walk -/

/-- How one task's walk may change the shared state at a single day `d`:
either the day is untouched, or exactly one entry for this task was appended,
with an unrounded amount `h` bounded by the day's prior remaining capacity. -/
def DayDelta (i : Nat) (t : Task) (g g' : GState) (d : Int) : Prop :=
  (g'.cap d = g.cap d ∧ g'.planAt d = g.planAt d) ∨
  (∃ h : ℚ, 0 < h ∧ h ≤ g.cap d ∧ g'.cap d = g.cap d - h ∧
    g'.planAt d = g.planAt d ++ [⟨i, t.name, h, round2 h⟩])

theorem foldl_allocStep_spec (i : Nat) (t : Task) :
    ∀ (days : List Int) (g : GState) (hl : ℚ) (r : GState × ℚ),
      days.Nodup → 0 ≤ hl → days.foldl (allocStep i t) (g, hl) = r →
      (∀ d, DayDelta i t g r.1 d) ∧
      (∀ d, d ∉ days → r.1.cap d = g.cap d ∧ r.1.planAt d = g.planAt d) ∧
      0 ≤ r.2 ∧
      hl = r.2 + (days.map (fun d => sumRaw (r.1.planAt d) - sumRaw (g.planAt d))).sum := by
  intro days
  induction days with
  | nil =>
    intro g hl r _ hhl hr
    simp only [List.foldl_nil] at hr
    subst hr
    refine ⟨fun d => Or.inl ⟨rfl, rfl⟩, fun d _ => ⟨rfl, rfl⟩, hhl, by simp⟩
  | cons d0 ds ih =>
    intro g hl r hnd hhl hr
    have hnd0 : d0 ∉ ds := (List.nodup_cons.mp hnd).1
    have hnds : ds.Nodup := (List.nodup_cons.mp hnd).2
    simp only [List.foldl_cons] at hr
    by_cases hc : 0 < hl ∧ 0 < g.cap d0
    · -- an allocation happens on day d0
      set h0 : ℚ := min (g.cap d0) hl with hh0
      have hstep : allocStep i t (g, hl) d0 =
          (⟨Function.update g.cap d0 (g.cap d0 - h0),
            Function.update g.planAt d0 (g.planAt d0 ++ [⟨i, t.name, h0, round2 h0⟩])⟩,
           hl - h0) := by
        rw [allocStep, if_pos hc]
      rw [hstep] at hr
      have h0pos : 0 < h0 := lt_min hc.2 hc.1
      have h0le : h0 ≤ g.cap d0 := min_le_left _ _
      have h0lehl : h0 ≤ hl := min_le_right _ _
      set g1 : GState :=
        ⟨Function.update g.cap d0 (g.cap d0 - h0),
         Function.update g.planAt d0 (g.planAt d0 ++ [⟨i, t.name, h0, round2 h0⟩])⟩ with hg1
      have hg1cap : ∀ d, d ≠ d0 → g1.cap d = g.cap d := by
        intro d hd
        simp [hg1, Function.update_noteq hd]
      have hg1plan : ∀ d, d ≠ d0 → g1.planAt d = g.planAt d := by
        intro d hd
        simp [hg1, Function.update_noteq hd]
      have hg1cap0 : g1.cap d0 = g.cap d0 - h0 := by simp [hg1]
      have hg1plan0 : g1.planAt d0 = g.planAt d0 ++ [⟨i, t.name, h0, round2 h0⟩] := by
        simp [hg1]
      obtain ⟨hdelta, huntouched, hnn, hacc⟩ := ih g1 (hl - h0) r hnds (by linarith) hr
      refine ⟨?_, ?_, hnn, ?_⟩
      · intro d
        by_cases hd : d = d0
        · subst hd
          obtain ⟨hc1, hp1⟩ := huntouched d hnd0
          exact Or.inr ⟨h0, h0pos, h0le, by rw [hc1, hg1cap0], by rw [hp1, hg1plan0]⟩
        · rcases hdelta d with ⟨hc1, hp1⟩ | ⟨h, hpos, hle, hc1, hp1⟩
          · exact Or.inl ⟨by rw [hc1, hg1cap d hd], by rw [hp1, hg1plan d hd]⟩
          · exact Or.inr ⟨h, hpos, by rw [hg1cap d hd] at hle; exact hle,
              by rw [hc1, hg1cap d hd], by rw [hp1, hg1plan d hd]⟩
      · intro d hd
        have hd0 : d ≠ d0 := fun h => hd (h ▸ List.mem_cons_self _ _)
        have hds : d ∉ ds := fun h => hd (List.mem_cons_of_mem _ h)
        obtain ⟨hc1, hp1⟩ := huntouched d hds
        exact ⟨by rw [hc1, hg1cap d hd0], by rw [hp1, hg1plan d hd0]⟩
      · have hsum : (ds.map (fun d => sumRaw (r.1.planAt d) - sumRaw (g1.planAt d))).sum =
            (ds.map (fun d => sumRaw (r.1.planAt d) - sumRaw (g.planAt d))).sum := by
          congr 1
          refine List.map_congr_left ?_
          intro d hd
          rw [hg1plan d (fun h => hnd0 (h ▸ hd))]
        have hd0term : sumRaw (r.1.planAt d0) - sumRaw (g.planAt d0) = h0 := by
          obtain ⟨_, hp1⟩ := huntouched d0 hnd0
          rw [hp1, hg1plan0, sumRaw_append]
          simp [sumRaw]
        simp only [List.map_cons, List.sum_cons, hd0term]
        rw [hsum] at hacc
        linarith
    · -- no allocation on day d0
      have hstep : allocStep i t (g, hl) d0 = (g, hl) := by
        rw [allocStep, if_neg hc]
      rw [hstep] at hr
      obtain ⟨hdelta, huntouched, hnn, hacc⟩ := ih g hl r hnds hhl hr
      refine ⟨hdelta, ?_, hnn, ?_⟩
      · intro d hd
        exact huntouched d (fun h => hd (List.mem_cons_of_mem _ h))
      · have hd0term : sumRaw (r.1.planAt d0) - sumRaw (g.planAt d0) = 0 := by
          obtain ⟨_, hp1⟩ := huntouched d0 hnd0
          rw [hp1]
          ring
        simp only [List.map_cons, List.sum_cons, hd0term]
        linarith

/-- Two duplicate-free day lists that both contain the support of `f` carry
the same sum of `f`. -/
theorem sum_map_eq_of_support {f : Int → ℚ} {l₁ l₂ : List Int}
    (h₁ : l₁.Nodup) (h₂ : l₂.Nodup) (hs : ∀ d, f d ≠ 0 → d ∈ l₁ ∧ d ∈ l₂) :
    (l₁.map f).sum = (l₂.map f).sum := by
  rw [← List.sum_toFinset f h₁, ← List.sum_toFinset f h₂]
  have e1 : ∑ x ∈ l₁.toFinset ∩ l₂.toFinset, f x = l₁.toFinset.sum f := by
    apply Finset.sum_subset Finset.inter_subset_left
    intro x hx hnx
    by_contra hf
    exact hnx (Finset.mem_inter.mpr ⟨hx, List.mem_toFinset.mpr ((hs x hf).2)⟩)
  have e2 : ∑ x ∈ l₁.toFinset ∩ l₂.toFinset, f x = l₂.toFinset.sum f := by
    apply Finset.sum_subset Finset.inter_subset_right
    intro x hx hnx
    by_contra hf
    exact hnx (Finset.mem_inter.mpr ⟨List.mem_toFinset.mpr ((hs x hf).1), hx⟩)
  rw [← e1, e2]

/-! ## State invariant and the per-task corollary -/

/-- Invariant tying the mutable state to the initial capacity table `cap0`:
capacity plus allocated raw hours is conserved per day, a touched day's
capacity never goes negative, and every recorded entry has a positive
unrounded amount whose stored hours are its rounding. -/
def StInv (cap0 : Int → ℚ) (g : GState) : Prop :=
  (∀ d, g.cap d + sumRaw (g.planAt d) = cap0 d) ∧
  (∀ d, 0 ≤ g.cap d ∨ (g.cap d = cap0 d ∧ g.planAt d = [])) ∧
  (∀ d, ∀ e ∈ g.planAt d, 0 < e.raw ∧ e.hours = round2 e.raw)

/-- Total unrounded hours recorded for task index `i` over the day list `U`. -/
def tSum (U : List Int) (g : GState) (i : Nat) : ℚ :=
  (U.map (fun d => sumRaw ((g.planAt d).filter (fun e => e.idx = i)))).sum

theorem allocTask_spec (cap0 : Int → ℚ) (U : List Int) (i : Nat) (t : Task) (g : GState)
    (r : GState × ℚ) (hr : allocTask i t g = r)
    (hInv : StInv cap0 g)
    (hFresh : ∀ d, ∀ e ∈ g.planAt d, e.idx ≠ i)
    (hU : ∀ d, cap0 d ≠ 0 → d ∈ U) (hUnd : U.Nodup)
    (hrem : 0 ≤ t.remaining_hours) :
    StInv cap0 r.1 ∧
    (∀ d, ∀ e ∈ r.1.planAt d, e ∈ g.planAt d ∨ (e.idx = i ∧ e.name = t.name)) ∧
    (∀ d, ((g.planAt d).map Alloc.idx).Nodup → ((r.1.planAt d).map Alloc.idx).Nodup) ∧
    (∀ j, j ≠ i → ∀ d, (r.1.planAt d).filter (fun e => e.idx = j) =
      (g.planAt d).filter (fun e => e.idx = j)) ∧
    0 ≤ r.2 ∧
    tSum U r.1 i + r.2 = t.remaining_hours ∧
    (dayRange t.start_date t.due_date = [] → r.1 = g ∧ r.2 = t.remaining_hours) := by
  obtain ⟨hcons, hpos, hent⟩ := hInv
  obtain ⟨hdelta, huntouched, hnn, hacc⟩ :=
    foldl_allocStep_spec i t (dayRange t.start_date t.due_date) g t.remaining_hours r
      (dayRange_nodup _ _) hrem hr
  have hraws : ∀ d, ∀ e ∈ g.planAt d, 0 ≤ e.raw := fun d e he => (hent d e he).1.le
  -- pointwise description of the new entries for task `i`
  have hfi : ∀ d, sumRaw ((r.1.planAt d).filter (fun e => e.idx = i)) =
      sumRaw (r.1.planAt d) - sumRaw (g.planAt d) := by
    intro d
    have hofilter : (g.planAt d).filter (fun e => e.idx = i) = [] := by
      refine List.filter_eq_nil_iff.mpr ?_
      intro e he
      simpa using hFresh d e he
    rcases hdelta d with ⟨_, hp⟩ | ⟨h, _, _, _, hp⟩
    · rw [hp, hofilter, sumRaw_nil]
      ring
    · rw [hp, List.filter_append, hofilter, sumRaw_append]
      simp [sumRaw]
  refine ⟨⟨?_, ?_, ?_⟩, ?_, ?_, ?_, hnn, ?_, ?_⟩
  · -- conservation
    intro d
    rcases hdelta d with ⟨hc, hp⟩ | ⟨h, _, _, hc, hp⟩
    · rw [hc, hp]; exact hcons d
    · rw [hc, hp, sumRaw_append]
      have := hcons d
      simp only [sumRaw, List.map_cons, List.map_nil, List.sum_cons, List.sum_nil]
      simp only [sumRaw] at this
      linarith
  · -- capacity nonnegative once touched
    intro d
    rcases hdelta d with ⟨hc, hp⟩ | ⟨h, _, hle, hc, hp⟩
    · rw [hc, hp]; exact hpos d
    · left; rw [hc]; linarith
  · -- entry shape
    intro d e he
    rcases hdelta d with ⟨_, hp⟩ | ⟨h, hhpos, _, _, hp⟩
    · rw [hp] at he; exact hent d e he
    · rw [hp] at he
      rcases List.mem_append.mp he with h1 | h1
      · exact hent d e h1
      · simp only [List.mem_singleton] at h1
        subst h1
        exact ⟨hhpos, rfl⟩
  · -- provenance
    intro d e he
    rcases hdelta d with ⟨_, hp⟩ | ⟨h, _, _, _, hp⟩
    · rw [hp] at he; exact Or.inl he
    · rw [hp] at he
      rcases List.mem_append.mp he with h1 | h1
      · exact Or.inl h1
      · simp only [List.mem_singleton] at h1
        subst h1
        exact Or.inr ⟨rfl, rfl⟩
  · -- per-day distinct indices preserved
    intro d hnd
    rcases hdelta d with ⟨_, hp⟩ | ⟨h, _, _, _, hp⟩
    · rw [hp]; exact hnd
    · rw [hp, List.map_append]
      rw [List.nodup_append]
      refine ⟨hnd, by simp, ?_⟩
      intro a ha hb
      simp only [List.map_cons, List.map_nil, List.mem_singleton] at hb
      subst hb
      obtain ⟨e, he, hei⟩ := List.mem_map.mp ha
      exact hFresh d e he hei
  · -- other task indices untouched
    intro j hj d
    rcases hdelta d with ⟨_, hp⟩ | ⟨h, _, _, _, hp⟩
    · rw [hp]
    · rw [hp, List.filter_append]
      have : ([(⟨i, t.name, h, round2 h⟩ : Alloc)].filter (fun e => e.idx = j)) = [] := by
        simp [hj.symm]
      rw [this, List.append_nil]
  · -- accounting: allocated plus leftover equals the initial remaining hours
    have hswap : ((dayRange t.start_date t.due_date).map
        (fun d => sumRaw (r.1.planAt d) - sumRaw (g.planAt d))).sum =
        (U.map (fun d => sumRaw (r.1.planAt d) - sumRaw (g.planAt d))).sum := by
      refine sum_map_eq_of_support (dayRange_nodup _ _) hUnd ?_
      intro d hd
      constructor
      · by_contra hmem
        obtain ⟨hc, hp⟩ := huntouched d hmem
        rw [hp] at hd
        simp at hd
      · rcases hdelta d with ⟨_, hp⟩ | ⟨h, hhpos, hle, _, hp⟩
        · rw [hp] at hd; simp at hd
        · refine hU d ?_
          have hcap : 0 < g.cap d := lt_of_lt_of_le hhpos hle
          have hsr : 0 ≤ sumRaw (g.planAt d) := sumRaw_nonneg (hraws d)
          have := hcons d
          intro h0
          rw [h0] at this
          linarith
    have htS : tSum U r.1 i = (U.map
        (fun d => sumRaw (r.1.planAt d) - sumRaw (g.planAt d))).sum := by
      unfold tSum
      congr 1
      exact List.map_congr_left (fun d _ => hfi d)
    rw [htS, ← hswap]
    linarith [hacc]
  · -- empty walk: nothing happens
    intro hempty
    rw [allocTask, hempty] at hr
    simp only [List.foldl_nil] at hr
    rw [← hr]
    exact ⟨rfl, rfl⟩

/-! ## Specification of the outer task loop -/

theorem processTasks_spec (cap0 : Int → ℚ) (U : List Int)
    (hU : ∀ d, cap0 d ≠ 0 → d ∈ U) (hUnd : U.Nodup) :
    ∀ (L : List (Nat × Task)) (g : GState) (ws : List Warning) (r : GState × List Warning),
      processTasks L g ws = r →
      StInv cap0 g →
      (L.map Prod.fst).Nodup →
      (∀ d, ∀ e ∈ g.planAt d, e.idx ∉ L.map Prod.fst) →
      (∀ w ∈ ws, w.idx ∉ L.map Prod.fst) →
      (∀ p ∈ L, 0 < p.2.remaining_hours) →
      (∀ d, ((g.planAt d).map Alloc.idx).Nodup) →
      StInv cap0 r.1 ∧
      (∀ d, ((r.1.planAt d).map Alloc.idx).Nodup) ∧
      (∀ d, ∀ e ∈ r.1.planAt d, e ∈ g.planAt d ∨ ∃ p ∈ L, e.idx = p.1 ∧ e.name = p.2.name) ∧
      (∃ new, r.2 = ws ++ new ∧ ∀ w ∈ new, ∃ p ∈ L, w.idx = p.1 ∧ w.name = p.2.name ∧
        w.due_date = p.2.due_date ∧ w.short = round2 w.rawShort ∧ 0 < w.rawShort) ∧
      (∀ j, j ∉ L.map Prod.fst → ∀ d, (r.1.planAt d).filter (fun e => e.idx = j) =
        (g.planAt d).filter (fun e => e.idx = j)) ∧
      (∀ p ∈ L, ∃ s, 0 ≤ s ∧ tSum U r.1 p.1 + s = p.2.remaining_hours ∧
        r.2.filter (fun w => w.idx = p.1) =
          (if 0 < s then [⟨p.1, p.2.name, round2 s, s, p.2.due_date⟩] else []) ∧
        (dayRange p.2.start_date p.2.due_date = [] → s = p.2.remaining_hours)) := by
  intro L
  induction L with
  | nil =>
    intro g ws r hr hInv _ _ _ _ hndAll
    simp only [processTasks] at hr
    subst hr
    refine ⟨hInv, hndAll, fun d e he => Or.inl he, ⟨[], by simp, by simp⟩,
      fun j _ d => rfl, by simp⟩
  | cons p0 rest ih =>
    obtain ⟨i, t⟩ := p0
    intro g ws r hr hInv hndL hFresh hwsFresh hActive hndAll
    simp only [List.map_cons, List.nodup_cons] at hndL
    obtain ⟨hiRest, hndRest⟩ := hndL
    set r1 := allocTask i t g with hr1
    set wi : Warning := ⟨i, t.name, round2 r1.2, r1.2, t.due_date⟩ with hwi
    set mid : List Warning := if 0 < r1.2 then [wi] else [] with hmid
    have hws1 : (if 0 < r1.2 then ws ++ [wi] else ws) = ws ++ mid := by
      rw [hmid]
      by_cases h : 0 < r1.2 <;> simp [h]
    have hr' : processTasks rest r1.1 (ws ++ mid) = r := by
      rw [← hws1]
      simpa only [processTasks] using hr
    obtain ⟨hInv1, hprov1, hnd1, hfilter1, hnn1, hacc1, hempty1⟩ :=
      allocTask_spec cap0 U i t g r1 rfl hInv
        (fun d e he => by
          have := hFresh d e he
          simp only [List.map_cons, List.mem_cons] at this
          exact fun h => this (Or.inl h))
        hU hUnd (hActive (i, t) (by simp)).le
    have hFresh1 : ∀ d, ∀ e ∈ r1.1.planAt d, e.idx ∉ rest.map Prod.fst := by
      intro d e he
      rcases hprov1 d e he with h1 | ⟨h1, _⟩
      · have := hFresh d e h1
        simp only [List.map_cons, List.mem_cons] at this
        exact fun h => this (Or.inr h)
      · rw [h1]; exact hiRest
    have hwsFresh1 : ∀ w ∈ ws ++ mid, w.idx ∉ rest.map Prod.fst := by
      intro w hw
      rcases List.mem_append.mp hw with h1 | h1
      · have := hwsFresh w h1
        simp only [List.map_cons, List.mem_cons] at this
        exact fun h => this (Or.inr h)
      · rw [hmid] at h1
        by_cases hc : 0 < r1.2
        · simp only [if_pos hc, List.mem_singleton] at h1
          rw [h1, hwi]
          exact hiRest
        · simp [if_neg hc] at h1
    obtain ⟨hInvR, hndR, hprovR, ⟨newR, hnewR, hnewRprop⟩, hfilterR, haccR⟩ :=
      ih r1.1 (ws ++ mid) r hr' hInv1 hndRest hFresh1 hwsFresh1
        (fun p hp => hActive p (by simp [hp])) (fun d => hnd1 d (hndAll d))
    refine ⟨hInvR, hndR, ?_, ?_, ?_, ?_⟩
    · -- provenance
      intro d e he
      rcases hprovR d e he with h1 | ⟨p, hp, h2, h3⟩
      · rcases hprov1 d e h1 with h2 | ⟨h2, h3⟩
        · exact Or.inl h2
        · exact Or.inr ⟨(i, t), by simp, h2, h3⟩
      · exact Or.inr ⟨p, by simp [hp], h2, h3⟩
    · -- warning provenance
      refine ⟨mid ++ newR, by rw [hnewR, List.append_assoc], ?_⟩
      intro w hw
      rcases List.mem_append.mp hw with h1 | h1
      · rw [hmid] at h1
        by_cases hc : 0 < r1.2
        · simp only [if_pos hc, List.mem_singleton] at h1
          subst h1
          exact ⟨(i, t), by simp, rfl, rfl, rfl, rfl, hc⟩
        · simp [if_neg hc] at h1
      · obtain ⟨p, hp, hrest⟩ := hnewRprop w h1
        exact ⟨p, by simp [hp], hrest⟩
    · -- untouched indices
      intro j hj d
      simp only [List.map_cons, List.mem_cons] at hj
      rw [hfilterR j (fun h => hj (Or.inr h)) d,
        hfilter1 j (fun h => hj (Or.inl h)) d]
    · -- per-task accounting
      intro p hp
      rcases List.mem_cons.mp hp with hp0 | hpRest
      · subst hp0
        refine ⟨r1.2, hnn1, ?_, ?_, ?_⟩
        · have htS : tSum U r.1 i = tSum U r1.1 i := by
            unfold tSum
            congr 1
            exact List.map_congr_left (fun d _ => by rw [hfilterR i hiRest d])
          rw [htS]
          exact hacc1
        · rw [hnewR, List.filter_append, List.filter_append]
          have h1 : ws.filter (fun w => w.idx = i) = [] := by
            refine List.filter_eq_nil_iff.mpr ?_
            intro w hw
            have := hwsFresh w hw
            simp only [List.map_cons, List.mem_cons] at this
            simpa using fun h => this (Or.inl h)
          have h2 : newR.filter (fun w => w.idx = i) = [] := by
            refine List.filter_eq_nil_iff.mpr ?_
            intro w hw
            obtain ⟨q, hq, hidx, _⟩ := hnewRprop w hw
            simp only [decide_eq_true_eq]
            rw [hidx]
            intro h
            exact hiRest (h ▸ List.mem_map_of_mem Prod.fst hq)
          rw [h1, h2, List.nil_append, List.append_nil, hmid]
          by_cases hc : 0 < r1.2
          · simp [if_pos hc, hwi]
          · simp [if_neg hc]
        · intro hemp
          exact (hempty1 hemp).2
      · obtain ⟨s, hs⟩ := haccR p hpRest
        exact ⟨s, hs⟩

/-- Membership in the pruned output plan (`{d: items for d, items in plan.items() if items}`). -/
theorem mem_prunedPlan {L : List Int} {f : Int → List Alloc} {d : Int} {es : List Alloc} :
    (d, es) ∈ L.filterMap (fun d => if f d = [] then none else some (d, f d)) ↔
      d ∈ L ∧ es = f d ∧ f d ≠ [] := by
  simp only [List.mem_filterMap]
  constructor
  · rintro ⟨a, ha, hif⟩
    by_cases h : f a = []
    · simp [h] at hif
    · simp only [h, if_false, Option.some_inj, Prod.mk.injEq] at hif
      obtain ⟨rfl, rfl⟩ := hif
      exact ⟨ha, rfl, h⟩
  · rintro ⟨hd, rfl, hne⟩
    exact ⟨d, hd, by simp [hne]⟩

/-! ## From `generate_plan` to the loop specification -/

theorem mem_sortedActive {tasks : List Task} {t : Task} :
    t ∈ sortedActive tasks ↔ t ∈ tasks ∧ 0 < t.remaining_hours := by
  rw [sortedActive, (List.mergeSort_perm _ _).mem_iff, List.mem_filter]
  simp

theorem dayRange_eq_nil {lo hi : Int} (h : hi < lo) : dayRange lo hi = [] := by
  unfold dayRange
  have : (hi + 1 - lo).toNat = 0 := by omega
  rw [this]
  rfl

theorem generate_plan_eq_nil {today : Int} {tasks : List Task} {wk we : ℚ}
    (h : sortedActive tasks = []) : generate_plan today tasks wk we = ⟨[], []⟩ := by
  rw [generate_plan, h]

theorem generate_plan_eq_cons {today : Int} {tasks : List Task} {wk we : ℚ}
    {a : Task} {as : List Task} (h : sortedActive tasks = a :: as) :
    generate_plan today tasks wk we =
      ⟨(dayRange today (lastDue a as)).filterMap
          (fun d => if (processTasks ((a :: as).enum)
              ⟨initCap today (lastDue a as) wk we, fun _ => []⟩ []).1.planAt d = [] then none
            else some (d, (processTasks ((a :: as).enum)
              ⟨initCap today (lastDue a as) wk we, fun _ => []⟩ []).1.planAt d)),
       (processTasks ((a :: as).enum)
          ⟨initCap today (lastDue a as) wk we, fun _ => []⟩ []).2⟩ := by
  rw [generate_plan, h]

/-- Master specification of a planner run with a nonempty active list:
exposes the final loop state `gf` behind the returned plan together with all
loop invariants. -/
theorem generate_plan_spec (today : Int) (tasks : List Task) (wk we : ℚ)
    (a : Task) (as : List Task) (hsorted : sortedActive tasks = a :: as) :
    ∃ gf : GState,
      (generate_plan today tasks wk we).plan =
        (dayRange today (lastDue a as)).filterMap
          (fun d => if gf.planAt d = [] then none else some (d, gf.planAt d)) ∧
      StInv (initCap today (lastDue a as) wk we) gf ∧
      (∀ d, ((gf.planAt d).map Alloc.idx).Nodup) ∧
      (∀ d, ∀ e ∈ gf.planAt d, ∃ p ∈ (a :: as).enum, e.idx = p.1 ∧ e.name = p.2.name) ∧
      (∀ w ∈ (generate_plan today tasks wk we).warnings, ∃ p ∈ (a :: as).enum,
        w.idx = p.1 ∧ w.name = p.2.name ∧ w.due_date = p.2.due_date ∧
        w.short = round2 w.rawShort ∧ 0 < w.rawShort) ∧
      (∀ p ∈ (a :: as).enum, ∃ s, 0 ≤ s ∧
        tSum (dayRange today (lastDue a as)) gf p.1 + s = p.2.remaining_hours ∧
        (generate_plan today tasks wk we).warnings.filter (fun w => w.idx = p.1) =
          (if 0 < s then [⟨p.1, p.2.name, round2 s, s, p.2.due_date⟩] else []) ∧
        (dayRange p.2.start_date p.2.due_date = [] → s = p.2.remaining_hours)) := by
  set cap0 : Int → ℚ := initCap today (lastDue a as) wk we with hcap0
  set U : List Int := dayRange today (lastDue a as) with hU
  set g0 : GState := ⟨cap0, fun _ => []⟩ with hg0
  set r : GState × List Warning := processTasks ((a :: as).enum) g0 [] with hrdef
  have hUin : ∀ d, cap0 d ≠ 0 → d ∈ U := by
    intro d hd
    rw [hU, mem_dayRange]
    by_contra hmem
    apply hd
    rw [hcap0, initCap, if_neg hmem]
  have hInit : StInv cap0 g0 := by
    refine ⟨fun d => by simp [hg0, sumRaw], fun d => Or.inr ⟨rfl, rfl⟩, fun d e he => by
      simp [hg0] at he⟩
  have hndL : (((a :: as).enum).map Prod.fst).Nodup := by
    rw [List.enum_map_fst]
    exact List.nodup_range _
  have hActive : ∀ p ∈ (a :: as).enum, 0 < p.2.remaining_hours := by
    intro p hp
    have hmem : p.2 ∈ (a :: as) := by
      obtain ⟨i, x⟩ := p
      exact List.getElem?_mem (List.mk_mem_enum_iff_getElem?.mp hp)
    rw [← hsorted] at hmem
    exact (mem_sortedActive.mp hmem).2
  obtain ⟨hInvR, hndR, hprovR, ⟨new, hnew, hnewprop⟩, _, haccR⟩ :=
    processTasks_spec cap0 U hUin (hU ▸ dayRange_nodup _ _) ((a :: as).enum) g0 [] r rfl
      hInit hndL (fun d e he => by simp [hg0] at he) (by simp) hActive
      (fun d => by simp [hg0])
  have hplan : (generate_plan today tasks wk we).plan =
      U.filterMap (fun d => if r.1.planAt d = [] then none else some (d, r.1.planAt d)) := by
    rw [generate_plan_eq_cons hsorted]
  have hwarn : (generate_plan today tasks wk we).warnings = r.2 := by
    rw [generate_plan_eq_cons hsorted]
  refine ⟨r.1, hplan, hInvR, hndR, ?_, ?_, ?_⟩
  · intro d e he
    rcases hprovR d e he with h1 | h1
    · simp [hg0] at h1
    · exact h1
  · intro w hw
    rw [hwarn, hnew] at hw
    simp only [List.nil_append] at hw
    exact hnewprop w hw
  · intro p hp
    obtain ⟨s, hs0, hacc, hfilt, hemp⟩ := haccR p hp
    exact ⟨s, hs0, hacc, by rw [hwarn]; exact hfilt, hemp⟩

theorem sumRaw_flatten (L : List (List Alloc)) :
    sumRaw L.flatten = (L.map sumRaw).sum := by
  induction L with
  | nil => simp [sumRaw]
  | cons l L ih => simp [List.flatten_cons, sumRaw_append, ih]

theorem taskAllocs_filterMap (U : List Int) (f : Int → List Alloc) (i : Nat) :
    taskAllocs (U.filterMap (fun d => if f d = [] then none else some (d, f d))) i =
      (U.map (fun d => (f d).filter (fun e => e.idx = i))).flatten := by
  unfold taskAllocs
  induction U with
  | nil => rfl
  | cons d U ih =>
    by_cases h : f d = []
    · rw [List.filterMap_cons_none (by simp [h]), ih]
      simp [h]
    · rw [List.filterMap_cons_some (b := (d, f d)) (by simp [h])]
      simp only [List.map_cons, List.flatten_cons, ih]

theorem sumRaw_taskAllocs_eq_tSum (U : List Int) (g : GState) (i : Nat) :
    sumRaw (taskAllocs
      (U.filterMap (fun d => if g.planAt d = [] then none else some (d, g.planAt d))) i) =
      tSum U g i := by
  rw [taskAllocs_filterMap, sumRaw_flatten, tSum]
  congr 1
  rw [List.map_map]
  rfl

theorem mem_taskAllocs {p : List (Int × List Alloc)} {i : Nat} {e : Alloc}
    (he : e ∈ taskAllocs p i) : (∃ dl ∈ p, e ∈ dl.2) ∧ e.idx = i := by
  rw [taskAllocs] at he
  obtain ⟨l, hl, hel⟩ := List.mem_flatten.mp he
  obtain ⟨dl, hdl, rfl⟩ := List.mem_map.mp hl
  refine ⟨⟨dl, hdl, List.mem_of_mem_filter hel⟩, ?_⟩
  have := List.of_mem_filter hel
  simpa using this

theorem find?_eq_head?_filter {α : Type} (p : α → Bool) (l : List α) :
    l.find? p = (l.filter p).head? := by
  induction l with
  | nil => rfl
  | cons a l ih =>
    by_cases h : p a
    · rw [List.find?_cons_of_pos _ h, List.filter_cons_of_pos h]
      rfl
    · rw [List.find?_cons_of_neg _ (by simpa using h), List.filter_cons_of_neg (by simpa using h)]
      exact ih

/-! ## Claim theorems -/

/-- **C1 (amended).** For every task processed by the planner (position `i` of
the sorted active list), the sum of the *unrounded* hours allocated to that
task across all days of the returned plan, plus the *unrounded* shortfall of
its warning (zero if none), equals the task's `remaining_hours` at call time
*exactly*; the reported (recorded) figures are the 2-decimal roundings of
these, so the recorded sum plus the reported shortfall equals
`remaining_hours` within `0.005 · (k + 1)` where `k` is the number of plan
entries recorded for the task — not within the fixed tolerance `0.01`, which
fails once three or more rounded entries drift the same way. -/
theorem C1_task_hours_accounting (today : Int) (tasks : List Task) (wk we : ℚ)
    (i : Nat) (t : Task) (ht : (sortedActive tasks)[i]? = some t) :
    sumRaw (taskAllocs (generate_plan today tasks wk we).plan i) +
      rawShort (generate_plan today tasks wk we).warnings i = t.remaining_hours ∧
    reportedShort (generate_plan today tasks wk we).warnings i =
      round2 (rawShort (generate_plan today tasks wk we).warnings i) ∧
    |sumRec (taskAllocs (generate_plan today tasks wk we).plan i) +
        reportedShort (generate_plan today tasks wk we).warnings i - t.remaining_hours| ≤
      (((taskAllocs (generate_plan today tasks wk we).plan i).length : ℚ) + 1) * (1/200) := by
  cases hS : sortedActive tasks with
  | nil => rw [hS] at ht; simp at ht
  | cons a as =>
    obtain ⟨gf, hplan, ⟨hcons, hpos, hent⟩, hnd, hprov, hwarn, hacc⟩ :=
      generate_plan_spec today tasks wk we a as hS
    have hmem : (i, t) ∈ (a :: as).enum := by
      rw [List.mk_mem_enum_iff_getElem?]
      rw [hS] at ht
      exact ht
    obtain ⟨s, hs0, htsum, hfilt, _⟩ := hacc (i, t) hmem
    have hsumRaw : sumRaw (taskAllocs (generate_plan today tasks wk we).plan i) =
        tSum (dayRange today (lastDue a as)) gf i := by
      rw [hplan, sumRaw_taskAllocs_eq_tSum]
    have hrawShort : rawShort (generate_plan today tasks wk we).warnings i = s := by
      rw [rawShort, find?_eq_head?_filter, hfilt]
      by_cases hc : 0 < s
      · rw [if_pos hc]; rfl
      · rw [if_neg hc]
        have : s = 0 := le_antisymm (not_lt.mp hc) hs0
        rw [this]; rfl
    have hreported : reportedShort (generate_plan today tasks wk we).warnings i =
        round2 s := by
      rw [reportedShort, find?_eq_head?_filter, hfilt]
      by_cases hc : 0 < s
      · rw [if_pos hc]; rfl
      · rw [if_neg hc]
        have : s = 0 := le_antisymm (not_lt.mp hc) hs0
        rw [this, round2_zero]; rfl
    have hEntShape : ∀ e ∈ taskAllocs (generate_plan today tasks wk we).plan i,
        e.hours = round2 e.raw := by
      intro e he
      obtain ⟨⟨dl, hdl, hedl⟩, _⟩ := mem_taskAllocs he
      rw [hplan] at hdl
      obtain ⟨d, hd⟩ : ∃ d, dl = (d, gf.planAt d) ∧ gf.planAt d ≠ [] := by
        obtain ⟨d, _, hif⟩ := List.mem_filterMap.mp hdl
        by_cases hc : gf.planAt d = []
        · simp [hc] at hif
        · simp only [hc, if_neg, ite_false, Option.some_inj] at hif
          exact ⟨d, hif.symm, hc⟩
      rw [hd.1] at hedl
      exact (hent d e hedl).2
    refine ⟨?_, ?_, ?_⟩
    · rw [hsumRaw, hrawShort]; exact htsum
    · rw [hreported, hrawShort]
    · set A := taskAllocs (generate_plan today tasks wk we).plan i with hA
      have h1 : |sumRec A - sumRaw A| ≤ A.length * (1/200) := abs_sumRec_sub_sumRaw hEntShape
      have h2 : |round2 s - s| ≤ 1/200 := abs_round2_sub_le s
      have h3 : sumRaw A + s = t.remaining_hours := by
        rw [hsumRaw]; exact htsum
      rw [hreported]
      have hkey : sumRec A + round2 s - t.remaining_hours =
          (sumRec A - sumRaw A) + (round2 s - s) := by
        rw [← h3]; ring
      rw [hkey]
      calc |(sumRec A - sumRaw A) + (round2 s - s)|
          ≤ |sumRec A - sumRaw A| + |round2 s - s| := abs_add _ _
        _ ≤ A.length * (1/200) + 1/200 := by linarith
        _ = ((A.length : ℚ) + 1) * (1/200) := by ring

/-- Concrete input for the C1 counterexample: weekday cap `0.004` hours,
one task of `0.012` remaining hours due in three days; each day's allocation
of `0.004` is recorded as `0.00`, so the recorded total plus reported
shortfall misses `remaining_hours` by `0.012 > 0.01`. -/
def c1Task : Task :=
  { name := "T", start_date := 0, due_date := 2, priority := 1, remaining_hours := 3/250 }

/-- **C1 (counterexample).** At the input above, the recorded allocation sum
for the task plus the reported shortfall does *not* equal the task's
`remaining_hours` within the claimed `0.01` tolerance. -/
theorem C1_counterexample :
    (sortedActive [c1Task])[0]? = some c1Task ∧
    ¬ (|sumRec (taskAllocs (generate_plan 0 [c1Task] (1/250) 2).plan 0) +
        reportedShort (generate_plan 0 [c1Task] (1/250) 2).warnings 0 -
        c1Task.remaining_hours| ≤ 1/100) := by
  with_unfolding_all decide

/-- Concrete input for the C1 witness: one task of 10 remaining hours due
tomorrow, weekday cap 3. -/
def c1wTask : Task :=
  { name := "W", start_date := 0, due_date := 1, priority := 1, remaining_hours := 10 }

/-- Witness for `C1_task_hours_accounting` at a concrete input. -/
theorem C1_witness :
    (sortedActive [c1wTask])[0]? = some c1wTask ∧
    (sumRaw (taskAllocs (generate_plan 0 [c1wTask] 3 2).plan 0) +
      rawShort (generate_plan 0 [c1wTask] 3 2).warnings 0 = c1wTask.remaining_hours ∧
    reportedShort (generate_plan 0 [c1wTask] 3 2).warnings 0 =
      round2 (rawShort (generate_plan 0 [c1wTask] 3 2).warnings 0) ∧
    |sumRec (taskAllocs (generate_plan 0 [c1wTask] 3 2).plan 0) +
        reportedShort (generate_plan 0 [c1wTask] 3 2).warnings 0 - c1wTask.remaining_hours| ≤
      (((taskAllocs (generate_plan 0 [c1wTask] 3 2).plan 0).length : ℚ) + 1) * (1/200)) :=
  ⟨by with_unfolding_all decide,
   C1_task_hours_accounting 0 [c1wTask] 3 2 0 c1wTask (by with_unfolding_all decide)⟩

/-- **C2 (amended).** For every day of the returned plan, the sum of the
*unrounded* hours allocated on that day never exceeds the day's configured
capacity (weekend cap when `5 ≤ d % 7`, else weekday cap); the *recorded*
(rounded) sum can exceed the capacity only by the rounding drift, at most
`0.005` per entry. -/
theorem C2_day_capacity (today : Int) (tasks : List Task) (wk we : ℚ)
    (d : Int) (es : List Alloc)
    (h : (d, es) ∈ (generate_plan today tasks wk we).plan) :
    sumRaw es ≤ (if 5 ≤ d % 7 then we else wk) ∧
    sumRec es ≤ (if 5 ≤ d % 7 then we else wk) + (es.length : ℚ) * (1/200) := by
  cases hS : sortedActive tasks with
  | nil =>
    rw [generate_plan_eq_nil hS] at h
    simp at h
  | cons a as =>
    obtain ⟨gf, hplan, ⟨hcons, hpos, hent⟩, _, _, _, _⟩ :=
      generate_plan_spec today tasks wk we a as hS
    rw [hplan] at h
    obtain ⟨hd, hes, hne⟩ := mem_prunedPlan.mp h
    have hcap0 : initCap today (lastDue a as) wk we d = (if 5 ≤ d % 7 then we else wk) := by
      rw [initCap, if_pos (mem_dayRange.mp hd)]
    have hcapnn : 0 ≤ gf.cap d := by
      rcases hpos d with h1 | ⟨_, h1⟩
      · exact h1
      · exact absurd (hes ▸ h1) hne
    have hsum : sumRaw es ≤ (if 5 ≤ d % 7 then we else wk) := by
      have := hcons d
      rw [hcap0] at this
      rw [hes]
      linarith
    refine ⟨hsum, ?_⟩
    have hshape : ∀ e ∈ es, e.hours = round2 e.raw := by
      intro e he
      exact (hent d e (hes ▸ he)).2
    have habs : |sumRec es - sumRaw es| ≤ (es.length : ℚ) * (1/200) :=
      abs_sumRec_sub_sumRaw hshape
    have := abs_le.mp habs
    linarith [this.2]

/-- Concrete input for the C2 counterexample: weekday cap `0.006`, one task
of `0.006` remaining hours due today; the allocation is recorded as `0.01`,
exceeding the day's configured capacity. -/
def c2Task : Task :=
  { name := "T", start_date := 0, due_date := 0, priority := 1, remaining_hours := 3/500 }

/-- **C2 (counterexample).** In the run above, day `0` of the returned plan
carries a recorded total of `0.01` hours, which exceeds that day's configured
(weekday) capacity `0.006`. -/
theorem C2_counterexample :
    (0, [(⟨0, "T", 3/500, 1/100⟩ : Alloc)]) ∈ (generate_plan 0 [c2Task] (3/500) 2).plan ∧
    ¬ (sumRec [(⟨0, "T", 3/500, 1/100⟩ : Alloc)] ≤
        (if 5 ≤ (0 : Int) % 7 then (2 : ℚ) else 3/500)) := by
  with_unfolding_all decide

/-- Concrete input for the C2 witness. -/
def c2wTask : Task :=
  { name := "W", start_date := 0, due_date := 1, priority := 1, remaining_hours := 10 }

/-- Witness for `C2_day_capacity` at a concrete input. -/
theorem C2_witness :
    (0, [(⟨0, "W", 3, 3⟩ : Alloc)]) ∈ (generate_plan 0 [c2wTask] 3 2).plan ∧
    (sumRaw [(⟨0, "W", 3, 3⟩ : Alloc)] ≤ (if 5 ≤ (0 : Int) % 7 then (2:ℚ) else 3) ∧
     sumRec [(⟨0, "W", 3, 3⟩ : Alloc)] ≤ (if 5 ≤ (0 : Int) % 7 then (2:ℚ) else 3) +
       (([(⟨0, "W", 3, 3⟩ : Alloc)].length : ℚ)) * (1/200)) :=
  ⟨by with_unfolding_all decide,
   C2_day_capacity 0 [c2wTask] 3 2 0 [⟨0, "W", 3, 3⟩] (by with_unfolding_all decide)⟩

theorem taskLE_trans : ∀ a b c : Task, taskLE a b → taskLE b c → taskLE a c := by
  intro a b c hab hbc
  simp only [taskLE, decide_eq_true_eq] at *
  omega

theorem taskLE_total : ∀ a b : Task, taskLE a b || taskLE b a := by
  intro a b
  simp only [taskLE, Bool.or_eq_true, decide_eq_true_eq]
  omega

/-- Concrete tasks for the spec's Scenario D: same due date, priorities 3
and 1, combined remaining hours exceeding one day's capacity. -/
def c3TaskLow : Task :=
  { name := "A", start_date := 0, due_date := 1, priority := 3, remaining_hours := 3 }

def c3TaskHigh : Task :=
  { name := "B", start_date := 0, due_date := 1, priority := 1, remaining_hours := 3 }

/-- **C3.** The planner processes active tasks in ascending order of
`(due_date, priority)`: the sorted active list is ordered by that
lexicographic key and is a permutation of the active tasks.  Consequently
(Scenario D), with two tasks of identical due date, priorities 1 and 3 and
combined remaining hours exceeding one day's capacity, the priority-1 task's
hours are fully placed on the earliest contested day and the priority-3 task
receives nothing there. -/
theorem C3_processing_order :
    (∀ tasks : List Task,
      List.Pairwise (fun a b => a.due_date < b.due_date ∨
        (a.due_date = b.due_date ∧ a.priority ≤ b.priority)) (sortedActive tasks) ∧
      (sortedActive tasks).Perm (tasks.filter (fun t => 0 < t.remaining_hours))) ∧
    (generate_plan 0 [c3TaskLow, c3TaskHigh] 3 3).plan =
      [(0, [⟨0, "B", 3, 3⟩]), (1, [⟨1, "A", 3, 3⟩])] := by
  constructor
  · intro tasks
    constructor
    · have hP := List.sorted_mergeSort taskLE_trans taskLE_total
        (tasks.filter (fun t => 0 < t.remaining_hours))
      rw [sortedActive]
      exact hP.imp (fun h => by simpa [taskLE] using h)
    · rw [sortedActive]
      exact List.mergeSort_perm _ _
  · with_unfolding_all decide

/-- **C4.** Tasks with `remaining_hours ≤ 0` contribute nothing: every task
in the processed (sorted active) list is strictly active, and every plan
entry and every warning originates (via its ghost index) from a task of that
list — hence from a task with positive remaining hours. -/
theorem C4_inactive_contribute_nothing (today : Int) (tasks : List Task) (wk we : ℚ) :
    (∀ t ∈ sortedActive tasks, 0 < t.remaining_hours) ∧
    (∀ p ∈ (generate_plan today tasks wk we).plan, ∀ e ∈ p.2,
      ∃ t, (sortedActive tasks)[e.idx]? = some t ∧ e.name = t.name ∧
        0 < t.remaining_hours) ∧
    (∀ w ∈ (generate_plan today tasks wk we).warnings,
      ∃ t, (sortedActive tasks)[w.idx]? = some t ∧ w.name = t.name ∧
        0 < t.remaining_hours) := by
  refine ⟨fun t ht => (mem_sortedActive.mp ht).2, ?_, ?_⟩
  · cases hS : sortedActive tasks with
    | nil =>
      rw [generate_plan_eq_nil hS]
      intro x hx
      simp at hx
    | cons a as =>
      obtain ⟨gf, hplan, _, _, hprov, _, _⟩ := generate_plan_spec today tasks wk we a as hS
      intro p hp e he
      rw [hplan] at hp
      obtain ⟨hd, hes, _⟩ := mem_prunedPlan.mp
        (show ((p.1, p.2) ∈ _) from (by simpa using hp))
      obtain ⟨q, hq, hidx, hname⟩ := hprov p.1 e (by rw [← hes]; exact he)
      refine ⟨q.2, ?_, hname, ?_⟩
      · rw [hidx]
        exact List.mk_mem_enum_iff_getElem?.mp (by exact hq)
      · have : q.2 ∈ (a :: as) := List.getElem?_mem (List.mk_mem_enum_iff_getElem?.mp hq)
        rw [← hS] at this
        exact (mem_sortedActive.mp this).2
  · cases hS : sortedActive tasks with
    | nil =>
      rw [generate_plan_eq_nil hS]
      intro x hx
      simp at hx
    | cons a as =>
      obtain ⟨gf, _, _, _, _, hwarn, _⟩ := generate_plan_spec today tasks wk we a as hS
      intro w hw
      obtain ⟨q, hq, hidx, hname, _, _, _⟩ := hwarn w hw
      refine ⟨q.2, ?_, hname, ?_⟩
      · rw [hidx]
        exact List.mk_mem_enum_iff_getElem?.mp (by exact hq)
      · have : q.2 ∈ (a :: as) := List.getElem?_mem (List.mk_mem_enum_iff_getElem?.mp hq)
        rw [← hS] at this
        exact (mem_sortedActive.mp this).2

/-- **C5.** An active task whose `start_date` lies strictly after its
`due_date` has an empty day-walk: no plan entry carries its index, and a
warning for it is emitted whose unrounded shortfall is its full
`remaining_hours` (displayed rounded to 2 decimals, per line 85 of the code). -/
theorem C5_start_after_due (today : Int) (tasks : List Task) (wk we : ℚ)
    (i : Nat) (t : Task) (ht : (sortedActive tasks)[i]? = some t)
    (hsd : t.due_date < t.start_date) :
    (∀ p ∈ (generate_plan today tasks wk we).plan, ∀ e ∈ p.2, e.idx ≠ i) ∧
    (⟨i, t.name, round2 t.remaining_hours, t.remaining_hours, t.due_date⟩ : Warning) ∈
      (generate_plan today tasks wk we).warnings := by
  cases hS : sortedActive tasks with
  | nil => rw [hS] at ht; simp at ht
  | cons a as =>
    obtain ⟨gf, hplan, ⟨hcons, hpos, hent⟩, _, _, _, hacc⟩ :=
      generate_plan_spec today tasks wk we a as hS
    have hmem : (i, t) ∈ (a :: as).enum := by
      rw [List.mk_mem_enum_iff_getElem?]
      rw [hS] at ht
      exact ht
    obtain ⟨s, hs0, htsum, hfilt, hemp⟩ := hacc (i, t) hmem
    have hempty : dayRange t.start_date t.due_date = [] := dayRange_eq_nil hsd
    have hsrem : s = t.remaining_hours := hemp hempty
    have hactive : 0 < t.remaining_hours := by
      have : t ∈ (a :: as) := List.getElem?_mem (List.mk_mem_enum_iff_getElem?.mp hmem)
      rw [← hS] at this
      exact (mem_sortedActive.mp this).2
    have hspos : 0 < s := hsrem ▸ hactive
    constructor
    · intro p hp e he hidx
      rw [hplan] at hp
      obtain ⟨hd, hes, _⟩ := mem_prunedPlan.mp
        (show ((p.1, p.2) ∈ _) from (by simpa using hp))
      -- the total raw allocation for `i` is zero, yet `e` would contribute positively
      have htzero : tSum (dayRange today (lastDue a as)) gf i = 0 := by
        rw [hsrem] at htsum
        linarith
      have hterm_nonneg : ∀ x ∈ (dayRange today (lastDue a as)).map
          (fun d => sumRaw ((gf.planAt d).filter (fun e => e.idx = i))), 0 ≤ x := by
        intro x hx
        obtain ⟨d, _, rfl⟩ := List.mem_map.mp hx
        exact sumRaw_nonneg (fun e' he' =>
          (hent d e' (List.mem_of_mem_filter he')).1.le)
      have hterm_mem : sumRaw ((gf.planAt p.1).filter (fun e => e.idx = i)) ∈
          (dayRange today (lastDue a as)).map
            (fun d => sumRaw ((gf.planAt d).filter (fun e => e.idx = i))) :=
        List.mem_map_of_mem _ hd
      have hterm_le : sumRaw ((gf.planAt p.1).filter (fun e => e.idx = i)) ≤
          tSum (dayRange today (lastDue a as)) gf i :=
        List.single_le_sum hterm_nonneg _ hterm_mem
      have hef : e ∈ (gf.planAt p.1).filter (fun e => e.idx = i) := by
        rw [List.mem_filter]
        exact ⟨by rw [← hes]; exact he, by simpa using hidx⟩
      have heraw : e.raw ≤ sumRaw ((gf.planAt p.1).filter (fun e => e.idx = i)) := by
        unfold sumRaw
        refine List.single_le_sum ?_ _ (List.mem_map_of_mem _ hef)
        intro x hx
        obtain ⟨e', he', rfl⟩ := List.mem_map.mp hx
        exact (hent p.1 e' (List.mem_of_mem_filter he')).1.le
      have hepos : 0 < e.raw := (hent p.1 e (by rw [← hes]; exact he)).1
      linarith [htzero ▸ hterm_le]
    · rw [if_pos hspos] at hfilt
      have : (⟨i, t.name, round2 s, s, t.due_date⟩ : Warning) ∈
          (generate_plan today tasks wk we).warnings.filter (fun w => w.idx = i) := by
        rw [hfilt]
        simp
      rw [hsrem] at this
      exact List.mem_of_mem_filter this

/-- **C6 (amended).** With the ambient current date made explicit, the
planner is deterministic: two calls whose current date, task list and caps
coincide produce identical plans and warnings.  (The original claim omitted
the current date, which `generate_plan` reads via `date.today()`.) -/
theorem C6_deterministic (today today' : Int) (tasks tasks' : List Task)
    (wk wk' we we' : ℚ) (h1 : today = today') (h2 : tasks = tasks')
    (h3 : wk = wk') (h4 : we = we') :
    generate_plan today tasks wk we = generate_plan today' tasks' wk' we' := by
  subst h1
  subst h2
  subst h3
  subst h4
  rfl

/-- Concrete task for the C6 counterexample. -/
def c6Task : Task :=
  { name := "T", start_date := 0, due_date := 0, priority := 1, remaining_hours := 1 }

/-- **C6 (counterexample).** Identical task list and caps, but different
ambient current dates: the two calls disagree (the planner reads
`date.today()`, hidden state not among the claim's listed inputs). -/
theorem C6_counterexample :
    generate_plan 0 [c6Task] 3 2 ≠ generate_plan 7 [c6Task] 3 2 := by
  with_unfolding_all decide

/-- Witness for `C6_deterministic` at a concrete input. -/
theorem C6_witness :
    (0 : Int) = 0 ∧ [c6Task] = [c6Task] ∧ (3 : ℚ) = 3 ∧ (2 : ℚ) = 2 ∧
    generate_plan 0 [c6Task] 3 2 = generate_plan 0 [c6Task] 3 2 :=
  ⟨rfl, rfl, rfl, rfl, C6_deterministic 0 0 [c6Task] [c6Task] 3 3 2 2 rfl rfl rfl rfl⟩

/-- **C7.** Every key of the returned plan lies in the capacity window
`[today, lastDue]` built from the schedule start and the maximum due date of
the active tasks, regardless of any task's own earlier `start_date`. -/
theorem C7_plan_window (today : Int) (tasks : List Task) (wk we : ℚ)
    (d : Int) (es : List Alloc) (h : (d, es) ∈ (generate_plan today tasks wk we).plan) :
    ∃ a as, sortedActive tasks = a :: as ∧ today ≤ d ∧ d ≤ lastDue a as := by
  cases hS : sortedActive tasks with
  | nil =>
    rw [generate_plan_eq_nil hS] at h
    simp at h
  | cons a as =>
    obtain ⟨gf, hplan, _, _, _, _, _⟩ := generate_plan_spec today tasks wk we a as hS
    rw [hplan] at h
    obtain ⟨hd, _, _⟩ := mem_prunedPlan.mp h
    obtain ⟨h1, h2⟩ := mem_dayRange.mp hd
    exact ⟨a, as, rfl, h1, h2⟩

/-- **C8.** When no active task remains, the planner returns an empty plan
and an empty warning list. -/
theorem C8_empty_active (today : Int) (tasks : List Task) (wk we : ℚ)
    (h : tasks.filter (fun t => 0 < t.remaining_hours) = []) :
    generate_plan today tasks wk we = ⟨[], []⟩ := by
  apply generate_plan_eq_nil
  rw [sortedActive, h, List.mergeSort_nil]

/-- Concrete inactive task for the C8 witness. -/
def c8Task : Task :=
  { name := "done", start_date := 0, due_date := 5, priority := 1, remaining_hours := 0 }

/-- Witness for `C8_empty_active` at a concrete input. -/
theorem C8_witness :
    [c8Task].filter (fun t => 0 < t.remaining_hours) = [] ∧
    generate_plan 0 [c8Task] 3 2 = ⟨[], []⟩ :=
  ⟨by with_unfolding_all decide,
   C8_empty_active 0 [c8Task] 3 2 (by with_unfolding_all decide)⟩

/-- **C10.** Every recorded allocation has a strictly positive unrounded
amount, its stored hours are that amount rounded to 2 decimals (hence at
least `0.01` whenever the unrounded amount is at least `0.005`), and within
a single day's list each task contributes at most one entry (the ghost task
indices are pairwise distinct). -/
theorem C10_entry_positivity (today : Int) (tasks : List Task) (wk we : ℚ)
    (d : Int) (es : List Alloc) (h : (d, es) ∈ (generate_plan today tasks wk we).plan) :
    (∀ e ∈ es, 0 < e.raw ∧ e.hours = round2 e.raw ∧
      (1/200 ≤ e.raw → 1/100 ≤ e.hours)) ∧
    (es.map Alloc.idx).Nodup := by
  cases hS : sortedActive tasks with
  | nil =>
    rw [generate_plan_eq_nil hS] at h
    simp at h
  | cons a as =>
    obtain ⟨gf, hplan, ⟨_, _, hent⟩, hnd, _, _, _⟩ :=
      generate_plan_spec today tasks wk we a as hS
    rw [hplan] at h
    obtain ⟨hd, hes, _⟩ := mem_prunedPlan.mp h
    constructor
    · intro e he
      obtain ⟨h1, h2⟩ := hent d e (hes ▸ he)
      refine ⟨h1, h2, fun h3 => ?_⟩
      rw [h2]
      exact le_round2_of_le _ h3
    · rw [hes]
      exact hnd d

/-- Projection of a task record onto the five fields the planner reads
(`name`, `start_date`, `due_date`, `priority`, `remaining_hours`); the
fields it never touches are reset to defaults. -/
def viewTask (t : Task) : Task :=
  { name := t.name, start_date := t.start_date, due_date := t.due_date,
    priority := t.priority, remaining_hours := t.remaining_hours }

theorem filter_map_view (tasks : List Task) :
    (tasks.map viewTask).filter (fun t => 0 < t.remaining_hours) =
      (tasks.filter (fun t => 0 < t.remaining_hours)).map viewTask := by
  rw [List.filter_map]
  rfl

theorem sortedActive_map_view (tasks : List Task) :
    sortedActive (tasks.map viewTask) = (sortedActive tasks).map viewTask := by
  rw [sortedActive, sortedActive, filter_map_view]
  refine (List.map_mergeSort ?_).symm
  intro a _ b _
  rfl

theorem lastDue_map_view (a : Task) (as : List Task) :
    lastDue (viewTask a) (as.map viewTask) = lastDue a as := by
  rw [lastDue, lastDue, List.foldl_map]
  rfl

theorem processTasks_map_view (L : List (Nat × Task)) (g : GState) (ws : List Warning) :
    processTasks (L.map (Prod.map id viewTask)) g ws = processTasks L g ws := by
  induction L generalizing g ws with
  | nil => rfl
  | cons p L ih =>
    obtain ⟨i, t⟩ := p
    simp only [List.map_cons, Prod.map_apply, id_eq, processTasks]
    have hAT : allocTask i (viewTask t) g = allocTask i t g := rfl
    rw [hAT]
    have hW : (⟨i, (viewTask t).name, round2 (allocTask i t g).2, (allocTask i t g).2,
        (viewTask t).due_date⟩ : Warning) =
        ⟨i, t.name, round2 (allocTask i t g).2, (allocTask i t g).2, t.due_date⟩ := rfl
    rw [hW]
    exact ih _ _

theorem generate_plan_map_view (today : Int) (tasks : List Task) (wk we : ℚ) :
    generate_plan today (tasks.map viewTask) wk we = generate_plan today tasks wk we := by
  cases hS : sortedActive tasks with
  | nil =>
    have hS' : sortedActive (tasks.map viewTask) = [] := by
      rw [sortedActive_map_view, hS]
      rfl
    rw [generate_plan_eq_nil hS, generate_plan_eq_nil hS']
  | cons a as =>
    have hS' : sortedActive (tasks.map viewTask) = viewTask a :: as.map viewTask := by
      rw [sortedActive_map_view, hS]
      rfl
    rw [generate_plan_eq_cons hS, generate_plan_eq_cons hS']
    have hEnum : (viewTask a :: as.map viewTask).enum =
        ((a :: as).enum).map (Prod.map id viewTask) := by
      rw [← List.map_cons, List.enum_map]
    rw [lastDue_map_view, hEnum, processTasks_map_view]

/-- **C9.** The planner reads only `name`, `start_date`, `due_date`,
`priority` and `remaining_hours` of each task record: two task lists that
agree on those five fields (while differing arbitrarily in
`estimated_hours`, `done_hours`, `email`, `email_sent`, `archived`) produce
identical plans and warnings.  In this embedding the planner is a pure
function of its inputs, which also expresses that it never writes to the
caller's records. -/
theorem C9_reads_only_five_fields (today : Int) (wk we : ℚ) (tasks tasks' : List Task)
    (h : tasks.map viewTask = tasks'.map viewTask) :
    generate_plan today tasks wk we = generate_plan today tasks' wk we := by
  rw [← generate_plan_map_view today tasks wk we, h, generate_plan_map_view]

/-- Concrete inputs for the C9 witness: same five read fields, different
unread bookkeeping fields. -/
def c9Task : Task :=
  { name := "W", start_date := 0, due_date := 1, priority := 2, remaining_hours := 4,
    estimated_hours := 9, done_hours := 5, email := "a@b", email_sent := true,
    archived := true }

def c9Task' : Task :=
  { name := "W", start_date := 0, due_date := 1, priority := 2, remaining_hours := 4,
    estimated_hours := 4, done_hours := 0, email := "", email_sent := false,
    archived := false }

/-- Witness for `C9_reads_only_five_fields` at a concrete input. -/
theorem C9_witness :
    [c9Task].map viewTask = [c9Task'].map viewTask ∧
    generate_plan 0 [c9Task] 3 2 = generate_plan 0 [c9Task'] 3 2 :=
  ⟨by with_unfolding_all decide,
   C9_reads_only_five_fields 0 3 2 [c9Task] [c9Task'] (by with_unfolding_all decide)⟩

/-- Concrete inputs for the C4 witness: one active task and one with zero
remaining hours. -/
def c4wTask : Task :=
  { name := "W", start_date := 0, due_date := 0, priority := 1, remaining_hours := 2 }

def c4Dead : Task :=
  { name := "dead", start_date := 0, due_date := 0, priority := 1, remaining_hours := 0 }

/-- Witness for `C4_inactive_contribute_nothing` at a concrete input. -/
theorem C4_witness :
    ∃ t, (sortedActive [c4wTask, c4Dead])[(⟨0, "W", 2, 2⟩ : Alloc).idx]? = some t ∧
      (⟨0, "W", 2, 2⟩ : Alloc).name = t.name ∧ 0 < t.remaining_hours :=
  (C4_inactive_contribute_nothing 0 [c4wTask, c4Dead] 3 2).2.1
    (0, [⟨0, "W", 2, 2⟩]) (by with_unfolding_all decide)
    ⟨0, "W", 2, 2⟩ (by with_unfolding_all decide)

/-- Concrete input for the C5 witness: `start_date` after `due_date`. -/
def c5Task : Task :=
  { name := "T5", start_date := 5, due_date := 3, priority := 1, remaining_hours := 2 }

/-- Witness for `C5_start_after_due` at a concrete input. -/
theorem C5_witness :
    (∀ p ∈ (generate_plan 0 [c5Task] 3 2).plan, ∀ e ∈ p.2, e.idx ≠ 0) ∧
    (⟨0, c5Task.name, round2 c5Task.remaining_hours, c5Task.remaining_hours,
      c5Task.due_date⟩ : Warning) ∈ (generate_plan 0 [c5Task] 3 2).warnings :=
  C5_start_after_due 0 [c5Task] 3 2 0 c5Task (by with_unfolding_all decide)
    (by with_unfolding_all decide)

/-- Concrete input for the C7 witness. -/
def c7Task : Task :=
  { name := "W", start_date := 0, due_date := 0, priority := 1, remaining_hours := 2 }

/-- Witness for `C7_plan_window` at a concrete input. -/
theorem C7_witness :
    ∃ a as, sortedActive [c7Task] = a :: as ∧ (0 : Int) ≤ 0 ∧ (0 : Int) ≤ lastDue a as :=
  C7_plan_window 0 [c7Task] 3 2 0 [⟨0, "W", 2, 2⟩] (by with_unfolding_all decide)

/-- Concrete input for the C10 witness. -/
def c10Task : Task :=
  { name := "W", start_date := 0, due_date := 0, priority := 1, remaining_hours := 2 }

/-- Witness for `C10_entry_positivity` at a concrete input. -/
theorem C10_witness :
    (∀ e ∈ [(⟨0, "W", 2, 2⟩ : Alloc)], 0 < e.raw ∧ e.hours = round2 e.raw ∧
      (1/200 ≤ e.raw → 1/100 ≤ e.hours)) ∧
    (([(⟨0, "W", 2, 2⟩ : Alloc)]).map Alloc.idx).Nodup :=
  C10_entry_positivity 0 [c10Task] 3 2 0 [⟨0, "W", 2, 2⟩] (by with_unfolding_all decide)

end StudyPlanner
